import Mathlib

/-!
Verification of the wgthrottler repository (a bounded-concurrency admission
controller for goroutines) against its natural-language specification.

The repository ships two variants of the controller:

* a global throttler (file wg-throttler.go): a counter `c` bounded by `max`,
  an underlying sync.WaitGroup, and an unbuffered channel `ch` on which every
  `Done` sends the value `-1`; the `-1` is added to `c` by whichever blocked
  `Next` loop or `Wait` drain loop receives it;

* a per-principal throttler (the context-based rewrite): a registry
  `cMap : user id -> held count`, a global `total`, a per-call quota
  `max / len(cMap)` rounded up, and an unbuffered `chan struct\x7b\x7d` on
  which every `dec` sends one wake signal.  `Wait` closes the channel when
  it returns.

The embedding below is sequential: every lock-protected mutation of the
counters is one atomic step.  Blocking channel operations are modelled
explicitly: a send with no receiver parks the signal (field `parked`), a
receive with no parked signal means the operation blocks, which the
corresponding Lean function reports as `none`.  A blocked admission attempt
observes the outside world only at its suspension points; the events it can
observe there (`WEv` below) are a registration by another principal and a
release by some task, exactly the two mutations other goroutines can commit
while this attempt sleeps on the channel.
-/

namespace Princ

/-- One event observable by a blocked `Next` attempt at a channel suspension
point: `reg` is a concurrent `Use` by another caller (no wake signal is
emitted for it), `rel u` is a concurrent `dec u` whose wake signal is
delivered to this blocked receiver. -/
inductive WEv : Type
  | reg : WEv
  | rel : Nat → WEv
deriving DecidableEq

/-- State of the per-principal WgThrottler (context-based variant).  `cMap`
is the Go map from user id to held count (association list, one entry per
key), `last` the auto-incrementing id source, `total` the global outstanding
count, `max` the capacity.  The unbuffered channel is modelled by `parked`
(wake signals sent but not yet received) and `chClosed` (set by `Wait`,
which closes the channel on return). -/
structure WgThrottler : Type where
  cMap : List (Nat × Int)
  last : Nat
  total : Int
  max : Nat
  parked : Nat
  chClosed : Bool
deriving DecidableEq

/-- Go map read `m[u]`: the stored value, or zero when the key is absent.
The association list holds at most one entry per key (the ops below insert a
key only when it is absent, as a Go map does). -/
def mapGet : List (Nat × Int) → Nat → Int
  | [], _ => 0
  | p :: rest, u => if p.1 = u then p.2 else mapGet rest u

/-- Whether the key is present in the Go map. -/
def hasKey : List (Nat × Int) → Nat → Bool
  | [], _ => false
  | p :: rest, u => p.1 = u || hasKey rest u

/-- Go map update `m[u] += d`: adjusts the entry in place, inserting the key
with value `d` when it is absent (Go maps materialise missing keys on
`m[u]++` and `m[u]--`). -/
def mapAdd : List (Nat × Int) → Nat → Int → List (Nat × Int)
  | [], u, d => [(u, d)]
  | p :: rest, u, d =>
    if p.1 = u then (p.1, p.2 + d) :: rest else p :: mapAdd rest u d

/-- NewThrottler from the source: empty registry, zero total, open channel. -/
def NewThrottler (max : Nat) : WgThrottler :=
  { cMap := [], last := 0, total := 0, max := max, parked := 0, chClosed := false }

/-- Method get from the source: reads the held count of `user` under the lock. -/
def get (wg : WgThrottler) (user : Nat) : Int :=
  mapGet wg.cMap user

/-- Method inc from the source: under the lock, `cMap[user]++; total++`. -/
def inc (wg : WgThrottler) (user : Nat) : WgThrottler :=
  { wg with cMap := mapAdd wg.cMap user 1, total := wg.total + 1 }

/-- Method dec from the source: under the lock, `cMap[user]--; total--`, then
one send on `ch`.  The counter mutations happen before the send.  The Bool
result records whether the send panicked (send on a closed channel); when the
channel is open the signal parks until some receiver takes it. -/
def dec (wg : WgThrottler) (user : Nat) : WgThrottler × Bool :=
  let wg1 := { wg with cMap := mapAdd wg.cMap user (-1), total := wg.total - 1 }
  if wg.chClosed then (wg1, true)
  else ({ wg1 with parked := wg.parked + 1 }, false)

/-- State effect of method Use from the source: refuse (no state change) when
`len(cMap) >= max`, otherwise allocate the fresh id `last+1` and register it
with a zero held count. -/
def useState (wg : WgThrottler) : WgThrottler :=
  if wg.cMap.length ≥ wg.max then wg
  else { wg with last := wg.last + 1, cMap := wg.cMap ++ [(wg.last + 1, 0)] }

/-- Method Use from the source: returns the context value (the fresh user id)
or `none` for the nil context, together with the updated state.  Use never
blocks: it is a total function of the current state. -/
def Use (wg : WgThrottler) : Option Nat × WgThrottler :=
  if wg.cMap.length ≥ wg.max then (none, wg)
  else (some (wg.last + 1), useState wg)

/-- Effect of one observable event on the state: a concurrent registration
runs the Use state change; a concurrent release runs the counter mutations of
`dec u`, its wake signal being delivered directly to the blocked receiver
(so it is not parked). -/
def applyEv (wg : WgThrottler) : WEv → WgThrottler
  | .reg => useState wg
  | .rel u => { wg with cMap := mapAdd wg.cMap u (-1), total := wg.total - 1 }

/-- The contextMax computation from Next in the source:
`max / len(cMap)`, bumped by one when `max % len(cMap) > 0`. -/
def contextMaxF (max n : Nat) : Nat :=
  max / n + (if max % n > 0 then 1 else 0)

/-- The quota Next computes at entry from the current registry size. -/
def quotaOf (wg : WgThrottler) : Nat :=
  contextMaxF wg.max wg.cMap.length

/-- The first blocking loop of Next:
`for range wg.ch \x7b if wg.get(user) < contextMax \x7b break \x7d \x7d`.
Each iteration receives one wake signal and then re-checks the held count
against the cached `q`; events that carry no wake signal pass by without a
re-check.  `none` means the attempt is still blocked when the trace ends. -/
def quotaLoop (q user : Nat) : List WEv → WgThrottler → Option (WgThrottler × List WEv)
  | [], _ => none
  | .reg :: rest, wg => quotaLoop q user rest (applyEv wg .reg)
  | .rel u :: rest, wg =>
    let wg1 := applyEv wg (.rel u)
    if get wg1 user < (q : Int) then some (wg1, rest)
    else quotaLoop q user rest wg1

/-- The second blocking loop of Next, fused with the final inc:
`for wg.total >= wg.max \x7b <-wg.ch \x7d; wg.inc(user)`.
The loop condition is re-checked at the head; a `reg` event leaves `total`
unchanged, so re-checking after it coincides with the source, which
re-checks only after receiving from the channel. -/
def totalLoop (user : Nat) : List WEv → WgThrottler → Option WgThrottler
  | evs, wg =>
    if wg.total < (wg.max : Int) then some (inc wg user)
    else
      match evs with
      | [] => none
      | e :: rest => totalLoop user rest (applyEv wg e)

/-- The body of Next after context validation, parameterised by the quota
value `q` used for the held-count checks:
`if wg.get(user) >= contextMax \x7b ...quota loop... \x7d` followed by the
total loop and the increment. -/
def NextAt (q user : Nat) (evs : List WEv) (wg : WgThrottler) : Option WgThrottler :=
  if get wg user < (q : Int) then totalLoop user evs wg
  else
    match quotaLoop q user evs wg with
    | none => none
    | some (wg1, rest) => totalLoop user rest wg1

/-- Method Next from the source, after context validation: the quota is
computed once, at call entry, from the registry size at that moment, and that
single value is used by every re-check of the attempt. -/
def NextRun (user : Nat) (wg : WgThrottler) (evs : List WEv) : Option WgThrottler :=
  NextAt (quotaOf wg) user evs wg

/-- Method Next including the context validation at its top: a context that
does not carry an integer user value panics (`none` outcome); the inner
Option is the blocking behaviour of the validated attempt. -/
def Next (ctx : Option Nat) (evs : List WEv) (wg : WgThrottler) : Option (Option WgThrottler) :=
  match ctx with
  | none => none
  | some user => some (NextRun user wg evs)

/-- Method Done from the source: panic (`none`) when the context carries no
integer user value or when the send in `dec` hits a closed channel;
otherwise the `dec` state with its parked wake signal. -/
def Done (ctx : Option Nat) (wg : WgThrottler) : Option WgThrottler :=
  match ctx with
  | none => none
  | some user =>
    let r := dec wg user
    if r.2 then none else some r.1

/-- The receive loop of Wait:
`for range wg.ch \x7b if wg.total <= 0 \x7b break \x7d \x7d` with
`defer close(wg.ch)`.  Each iteration consumes one parked wake signal and
then checks `total`; with no parked signal available the call blocks
(`none`).  The fuel argument equals the number of parked signals at entry,
which bounds the iterations the sequential call can complete. -/
def WaitLoop : Nat → WgThrottler → Option WgThrottler
  | 0, _ => none
  | fuel + 1, wg =>
    if wg.parked = 0 then none
    else
      let wg1 := { wg with parked := wg.parked - 1 }
      if wg1.total ≤ 0 then some { wg1 with chClosed := true }
      else WaitLoop fuel wg1

/-- Method Wait from the source (first call, channel still open). -/
def Wait (wg : WgThrottler) : Option WgThrottler :=
  WaitLoop wg.parked wg

/-- Sum of the held counts stored in the registry. -/
def sumHeld : List (Nat × Int) → Int
  | [] => 0
  | p :: rest => p.2 + sumHeld rest

/-- One operation of the per-principal interface, as issued by callers. -/
inductive POp : Type
  | use : POp
  | next : Nat → List WEv → POp
  | done : Nat → POp
  | wait : POp
deriving DecidableEq

/-- Run one operation; `none` when it blocks forever or panics. -/
def runOp (wg : WgThrottler) : POp → Option WgThrottler
  | .use => some (Use wg).2
  | .next u evs => NextRun u wg evs
  | .done u => Done (some u) wg
  | .wait => Wait wg

/-- Run a sequence of operations from a starting state. -/
def runOps : List POp → WgThrottler → Option WgThrottler
  | [], wg => some wg
  | op :: rest, wg => (runOp wg op).bind (runOps rest)

/-- Modelled from the spec: the first blocking loop of Next as the spec
sentence about quota recomputation demands it — the quota is re-read from
the current registry size after every wake, instead of the value cached at
call entry which the source uses.  This definition exists only to compare
the source behaviour against the spec wording; everything else in this file
is translated from the source. -/
def quotaLoopFresh (user : Nat) : List WEv → WgThrottler → Option (WgThrottler × List WEv)
  | [], _ => none
  | .reg :: rest, wg => quotaLoopFresh user rest (applyEv wg .reg)
  | .rel u :: rest, wg =>
    let wg1 := applyEv wg (.rel u)
    if get wg1 user < (quotaOf wg1 : Int) then some (wg1, rest)
    else quotaLoopFresh user rest wg1

/-- Modelled from the spec: Next with the quota re-read after every wake
(see `quotaLoopFresh`). -/
def NextRunFresh (user : Nat) (wg : WgThrottler) (evs : List WEv) : Option WgThrottler :=
  if get wg user < (quotaOf wg : Int) then totalLoop user evs wg
  else
    match quotaLoopFresh user evs wg with
    | none => none
    | some (wg1, rest) => totalLoop user rest wg1

/-- Whether every release event in the trace names a currently registered
principal — the discipline of a program that passes only contexts issued by
`Use` of this pool, never a forged or foreign handle. -/
def validEvs : WgThrottler → List WEv → Bool
  | _, [] => true
  | wg, .reg :: rest => validEvs (applyEv wg .reg) rest
  | wg, .rel u :: rest => hasKey wg.cMap u && validEvs (applyEv wg (.rel u)) rest

/-- Run one operation under the handle discipline: Next and Done are issued
only with handles currently in the registry (as a program holding only
contexts returned by `Use` does), Done only while the wake channel is open. -/
def runVOp (wg : WgThrottler) : POp → Option WgThrottler
  | .use => some (Use wg).2
  | .next u evs =>
    if hasKey wg.cMap u && validEvs wg evs then NextRun u wg evs else none
  | .done u =>
    if hasKey wg.cMap u && !wg.chClosed then Done (some u) wg else none
  | .wait => Wait wg

/-- Run a sequence of operations under the handle discipline. -/
def runVOps : List POp → WgThrottler → Option WgThrottler
  | [], wg => some wg
  | op :: rest, wg => (runVOp wg op).bind (runVOps rest)

/-- The structural invariant of the registry: it never outgrows the
capacity, and every registered id was drawn from the id source `last`. -/
def Inv (wg : WgThrottler) : Prop :=
  wg.cMap.length ≤ wg.max ∧ ∀ p ∈ wg.cMap, p.1 ≤ wg.last

end Princ

namespace Glob

/-- State of the global WgThrottler (file wg-throttler.go).  `c` is the
active count, `max` the capacity, `wgCount` the counter of the underlying
sync.WaitGroup, and `parked` the number of `-1` values sent on the unbuffered
channel by `Done` and not yet received by a blocked `Next` loop or by the
`Wait` drain loop. -/
structure WgThrottler : Type where
  c : Int
  max : Nat
  wgCount : Nat
  parked : Nat
deriving DecidableEq

/-- NewThrottler from the source: zero count, fresh channel and WaitGroup. -/
def NewThrottler (max : Nat) : WgThrottler :=
  { c := 0, max := max, wgCount := 0, parked := 0 }

/-- The body of Next: `for wg.c >= wg.max \x7b wg.c += <-wg.ch \x7d` followed
by `wg.wg.Add(1); wg.c++`.  Every value sent on the channel is `-1`, so a
receive decrements `c` and consumes one parked signal; with no parked signal
available the loop blocks (`none`).  The fuel argument equals the number of
parked signals at entry, which bounds the iterations the sequential call can
complete. -/
def NextLoop : Nat → WgThrottler → Option WgThrottler
  | 0, wg =>
    if wg.c < (wg.max : Int) then
      some { wg with c := wg.c + 1, wgCount := wg.wgCount + 1 }
    else none
  | f + 1, wg =>
    if wg.c < (wg.max : Int) then
      some { wg with c := wg.c + 1, wgCount := wg.wgCount + 1 }
    else if wg.parked = 0 then none
    else NextLoop f { wg with c := wg.c - 1, parked := wg.parked - 1 }

/-- Method Next from the source. -/
def Next (wg : WgThrottler) : Option WgThrottler :=
  NextLoop wg.parked wg

/-- Method Done from the source: `wg.wg.Done()` (which panics when the
WaitGroup counter is already zero, the `none` outcome), then the deferred
send of `-1` on the channel, which parks until some receiver takes it.  The
active count `c` is not touched by Done itself. -/
def Done (wg : WgThrottler) : Option WgThrottler :=
  if wg.wgCount = 0 then none
  else some { wg with wgCount := wg.wgCount - 1, parked := wg.parked + 1 }

/-- The drain loop of Wait: `for wg.c > 0 \x7b wg.c += <-wg.ch \x7d`.  Each
iteration receives one parked `-1`; with `c` positive and no parked signal
the call blocks (`none`).  Fuel as in `NextLoop`. -/
def WaitLoop : Nat → WgThrottler → Option WgThrottler
  | fuel, wg =>
    if wg.c ≤ 0 then some wg
    else
      match fuel with
      | 0 => none
      | f + 1 =>
        if wg.parked = 0 then none
        else WaitLoop f { wg with c := wg.c - 1, parked := wg.parked - 1 }

/-- Method Wait from the source: `wg.wg.Wait()` (blocks until the WaitGroup
counter is zero; sequentially, a nonzero counter means blocking forever),
then the drain loop collecting the lingering channel values. -/
def Wait (wg : WgThrottler) : Option WgThrottler :=
  if wg.wgCount ≠ 0 then none
  else WaitLoop wg.parked wg

/-- The atomic transitions of the global throttler, one constructor per
mutation the source performs: `enter` is the exit of the Next loop plus the
increment, `recvNext` one iteration of the blocked Next loop consuming a
parked `-1`, `done` one Done call (WaitGroup decrement plus parked send),
`recvWait` one iteration of the Wait drain loop (which runs only after the
WaitGroup counter reached zero). -/
inductive GStep : WgThrottler → WgThrottler → Prop
  | enter (wg : WgThrottler) : wg.c < (wg.max : Int) →
      GStep wg { wg with c := wg.c + 1, wgCount := wg.wgCount + 1 }
  | recvNext (wg : WgThrottler) : (wg.max : Int) ≤ wg.c → 0 < wg.parked →
      GStep wg { wg with c := wg.c - 1, parked := wg.parked - 1 }
  | done (wg : WgThrottler) : 0 < wg.wgCount →
      GStep wg { wg with wgCount := wg.wgCount - 1, parked := wg.parked + 1 }
  | recvWait (wg : WgThrottler) : wg.wgCount = 0 → 0 < wg.c → 0 < wg.parked →
      GStep wg { wg with c := wg.c - 1, parked := wg.parked - 1 }

/-- States reachable from a freshly constructed throttler through the atomic
transitions; "at every instant" in the claims quantifies over these. -/
inductive GReach (max : Nat) : WgThrottler → Prop
  | start : GReach max (NewThrottler max)
  | step {wg wg1 : WgThrottler} : GReach max wg → GStep wg wg1 → GReach max wg1

/-- Run `k` consecutive Next calls. -/
def nextK : Nat → WgThrottler → Option WgThrottler
  | 0, wg => some wg
  | k + 1, wg => (Next wg).bind (nextK k)

/-- Run `k` consecutive Done calls. -/
def doneK : Nat → WgThrottler → Option WgThrottler
  | 0, wg => some wg
  | k + 1, wg => (Done wg).bind (doneK k)

/-- One round of use: `k` admissions, then `k` releases, then Wait. -/
def roundTrip (k : Nat) (wg : WgThrottler) : Option WgThrottler :=
  ((nextK k wg).bind (doneK k)).bind Wait

end Glob

namespace Princ

theorem sumHeld_mapAdd (m : List (Nat × Int)) (u : Nat) (d : Int) :
    sumHeld (mapAdd m u d) = sumHeld m + d := by
  induction m with
  | nil => simp [mapAdd, sumHeld]
  | cons p rest ih =>
    by_cases h : p.1 = u
    · simp only [mapAdd, h, if_pos rfl, sumHeld]
      ring
    · simp only [mapAdd, if_neg h, sumHeld, ih]
      ring

theorem sumHeld_append (m1 m2 : List (Nat × Int)) :
    sumHeld (m1 ++ m2) = sumHeld m1 + sumHeld m2 := by
  induction m1 with
  | nil => simp [sumHeld]
  | cons p rest ih =>
    simp only [List.cons_append, sumHeld]
    rw [show sumHeld (rest.append m2) = sumHeld rest + sumHeld m2 from ih]
    ring

theorem mapGet_mapAdd_self (m : List (Nat × Int)) (u : Nat) (d : Int) :
    mapGet (mapAdd m u d) u = mapGet m u + d := by
  induction m with
  | nil => simp [mapAdd, mapGet]
  | cons p rest ih =>
    by_cases h : p.1 = u
    · simp [mapAdd, mapGet, h]
    · simp [mapAdd, mapGet, h, ih]

theorem mapGet_mapAdd_ne (m : List (Nat × Int)) (u v : Nat) (d : Int) (h : v ≠ u) :
    mapGet (mapAdd m u d) v = mapGet m v := by
  have huv : ¬ u = v := fun hh => h hh.symm
  induction m with
  | nil => simp [mapAdd, mapGet, huv]
  | cons p rest ih =>
    by_cases hp : p.1 = u
    · have hpv : ¬ p.1 = v := by rw [hp]; exact huv
      simp [mapAdd, mapGet, hp, huv, hpv]
    · by_cases hv : p.1 = v <;> simp [mapAdd, mapGet, hp, hv, ih, huv, h]

theorem mapGet_eq_zero_of_hasKey (m : List (Nat × Int)) (u : Nat)
    (h : hasKey m u = false) : mapGet m u = 0 := by
  induction m with
  | nil => simp [mapGet]
  | cons p rest ih =>
    simp only [hasKey, Bool.or_eq_false_iff, decide_eq_false_iff_not] at h
    simp [mapGet, h.1, ih h.2]

theorem hasKey_mapAdd_mono (m : List (Nat × Int)) (u v : Nat) (d : Int)
    (h : hasKey m v = true) : hasKey (mapAdd m u d) v = true := by
  induction m with
  | nil => simp [hasKey] at h
  | cons p rest ih =>
    simp only [hasKey, Bool.or_eq_true, decide_eq_true_eq] at h
    by_cases hp : p.1 = u
    · rcases h with h | h
      · simp [mapAdd, hasKey, hp, hp ▸ h]
      · simp [mapAdd, hasKey, hp, h]
    · rcases h with h | h
      · have hvu : ¬ v = u := by rw [← h]; exact hp
        simp [mapAdd, hasKey, hp, h, hvu]
      · simp [mapAdd, hasKey, hp, ih h]

theorem length_mapAdd_of_hasKey (m : List (Nat × Int)) (u : Nat) (d : Int)
    (h : hasKey m u = true) : (mapAdd m u d).length = m.length := by
  induction m with
  | nil => simp [hasKey] at h
  | cons p rest ih =>
    simp only [hasKey, Bool.or_eq_true, decide_eq_true_eq] at h
    by_cases hp : p.1 = u
    · simp [mapAdd, hp]
    · rcases h with h | h
      · exact absurd h hp
      · simp [mapAdd, hp, ih h]

theorem mem_key_mapAdd (m : List (Nat × Int)) (u : Nat) (d : Int) (p : Nat × Int)
    (hp : p ∈ mapAdd m u d) : p.1 = u ∨ ∃ q ∈ m, p.1 = q.1 := by
  induction m with
  | nil =>
    simp only [mapAdd, List.mem_singleton] at hp
    exact Or.inl (by rw [hp])
  | cons q rest ih =>
    by_cases hq : q.1 = u
    · simp only [mapAdd, if_pos hq, List.mem_cons] at hp
      rcases hp with hp | hp
      · exact Or.inl (by rw [hp, hq])
      · exact Or.inr ⟨p, List.mem_cons_of_mem _ hp, rfl⟩
    · simp only [mapAdd, if_neg hq, List.mem_cons] at hp
      rcases hp with hp | hp
      · exact Or.inr ⟨q, List.mem_cons_self _ _, by rw [hp]⟩
      · rcases ih hp with h | ⟨r, hr, he⟩
        · exact Or.inl h
        · exact Or.inr ⟨r, List.mem_cons_of_mem _ hr, he⟩

theorem hasKey_append (m1 m2 : List (Nat × Int)) (u : Nat) :
    hasKey (m1 ++ m2) u = (hasKey m1 u || hasKey m2 u) := by
  induction m1 with
  | nil => simp [hasKey]
  | cons p rest ih => simp [hasKey, ih, Bool.or_assoc]

theorem mapGet_append_zero (m : List (Nat × Int)) (u k : Nat) :
    mapGet (m ++ [(k, 0)]) u = mapGet m u := by
  induction m with
  | nil => by_cases h : k = u <;> simp [mapGet, h]
  | cons p rest ih => by_cases h : p.1 = u <;> simp [mapGet, h, ih]

theorem hasKey_iff_exists (m : List (Nat × Int)) (u : Nat) :
    hasKey m u = true ↔ ∃ p ∈ m, p.1 = u := by
  induction m with
  | nil => simp [hasKey]
  | cons p rest ih =>
    simp only [hasKey, Bool.or_eq_true, decide_eq_true_eq, ih, List.mem_cons]
    constructor
    · rintro (h | ⟨q, hq, he⟩)
      · exact ⟨p, Or.inl rfl, h⟩
      · exact ⟨q, Or.inr hq, he⟩
    · rintro ⟨q, hq | hq, he⟩
      · exact Or.inl (hq ▸ he)
      · exact Or.inr ⟨q, hq, he⟩

theorem hasKey_pos_length (m : List (Nat × Int)) (u : Nat)
    (h : hasKey m u = true) : 1 ≤ m.length := by
  cases m with
  | nil => simp [hasKey] at h
  | cons p rest => simp

theorem useState_fields (wg : WgThrottler) :
    (useState wg).total = wg.total ∧ (useState wg).max = wg.max ∧
    (useState wg).parked = wg.parked ∧ (useState wg).chClosed = wg.chClosed := by
  unfold useState
  split <;> simp

theorem get_useState (wg : WgThrottler) (u : Nat) :
    get (useState wg) u = get wg u := by
  unfold useState get
  split
  · rfl
  · exact mapGet_append_zero _ _ _

theorem sumHeld_useState (wg : WgThrottler) :
    sumHeld (useState wg).cMap = sumHeld wg.cMap := by
  unfold useState
  split
  · rfl
  · simp [sumHeld_append, sumHeld]

theorem get_applyEv_le (wg : WgThrottler) (e : WEv) (u : Nat) :
    get (applyEv wg e) u ≤ get wg u := by
  cases e with
  | reg => rw [show applyEv wg .reg = useState wg from rfl, get_useState]
  | rel v =>
    show mapGet (mapAdd wg.cMap v (-1)) u ≤ mapGet wg.cMap u
    by_cases h : u = v
    · rw [h, mapGet_mapAdd_self]; omega
    · rw [mapGet_mapAdd_ne _ _ _ _ h]

theorem max_applyEv (wg : WgThrottler) (e : WEv) : (applyEv wg e).max = wg.max := by
  cases e with
  | reg => exact (useState_fields wg).2.1
  | rel v => rfl

theorem sumHeld_applyEv (wg : WgThrottler) (e : WEv)
    (h : sumHeld wg.cMap = wg.total) :
    sumHeld (applyEv wg e).cMap = (applyEv wg e).total := by
  cases e with
  | reg =>
    show sumHeld (useState wg).cMap = (useState wg).total
    rw [sumHeld_useState, (useState_fields wg).1, h]
  | rel v =>
    show sumHeld (mapAdd wg.cMap v (-1)) = wg.total - 1
    rw [sumHeld_mapAdd, h]
    ring

theorem get_inc_self (wg : WgThrottler) (u : Nat) :
    get (inc wg u) u = get wg u + 1 := by
  show mapGet (mapAdd wg.cMap u 1) u = mapGet wg.cMap u + 1
  exact mapGet_mapAdd_self _ _ _

theorem sumHeld_inc (wg : WgThrottler) (u : Nat)
    (h : sumHeld wg.cMap = wg.total) :
    sumHeld (inc wg u).cMap = (inc wg u).total := by
  show sumHeld (mapAdd wg.cMap u 1) = wg.total + 1
  rw [sumHeld_mapAdd, h]

theorem totalLoop_admits (user : Nat) (evs : List WEv) :
    ∀ wg wg1, totalLoop user evs wg = some wg1 →
    ∃ t, wg1 = inc t user ∧ t.total < (t.max : Int) ∧
      get t user ≤ get wg user ∧ t.max = wg.max := by
  induction evs with
  | nil =>
    intro wg wg1 h
    rw [totalLoop] at h
    by_cases hc : wg.total < (wg.max : Int)
    · rw [if_pos hc] at h
      exact ⟨wg, (Option.some_injective _ h).symm, hc, le_refl _, rfl⟩
    · rw [if_neg hc] at h
      exact absurd h (by simp)
  | cons e rest ih =>
    intro wg wg1 h
    rw [totalLoop] at h
    by_cases hc : wg.total < (wg.max : Int)
    · rw [if_pos hc] at h
      exact ⟨wg, (Option.some_injective _ h).symm, hc, le_refl _, rfl⟩
    · rw [if_neg hc] at h
      rcases ih (applyEv wg e) wg1 h with ⟨t, h1, h2, h3, h4⟩
      exact ⟨t, h1, h2, le_trans h3 (get_applyEv_le wg e user),
        h4.trans (max_applyEv wg e)⟩

theorem totalLoop_sum (user : Nat) (evs : List WEv) :
    ∀ wg wg1, totalLoop user evs wg = some wg1 →
    sumHeld wg.cMap = wg.total → sumHeld wg1.cMap = wg1.total := by
  induction evs with
  | nil =>
    intro wg wg1 h hs
    rw [totalLoop] at h
    by_cases hc : wg.total < (wg.max : Int)
    · rw [if_pos hc] at h
      rw [← Option.some_injective _ h]
      exact sumHeld_inc wg user hs
    · rw [if_neg hc] at h; exact absurd h (by simp)
  | cons e rest ih =>
    intro wg wg1 h hs
    rw [totalLoop] at h
    by_cases hc : wg.total < (wg.max : Int)
    · rw [if_pos hc] at h
      rw [← Option.some_injective _ h]
      exact sumHeld_inc wg user hs
    · rw [if_neg hc] at h
      exact ih (applyEv wg e) wg1 h (sumHeld_applyEv wg e hs)

theorem quotaLoop_exit (q user : Nat) (evs : List WEv) :
    ∀ wg wg1 rest, quotaLoop q user evs wg = some (wg1, rest) →
    get wg1 user < (q : Int) ∧ wg1.max = wg.max := by
  induction evs with
  | nil => intro wg wg1 rest h; exact absurd h (by simp [quotaLoop])
  | cons e tail ih =>
    intro wg wg1 rest h
    cases e with
    | reg =>
      rw [quotaLoop] at h
      rcases ih _ _ _ h with ⟨h1, h2⟩
      exact ⟨h1, h2.trans (max_applyEv wg .reg)⟩
    | rel u =>
      rw [quotaLoop] at h
      by_cases hc : get (applyEv wg (.rel u)) user < (q : Int)
      · rw [if_pos hc] at h
        simp only [Option.some.injEq, Prod.mk.injEq] at h
        obtain ⟨h1, h2⟩ := h
        subst h1
        exact ⟨hc, max_applyEv wg (.rel u)⟩
      · rw [if_neg hc] at h
        rcases ih _ _ _ h with ⟨h1, h2⟩
        exact ⟨h1, h2.trans (max_applyEv wg (.rel u))⟩

theorem quotaLoop_sum (q user : Nat) (evs : List WEv) :
    ∀ wg wg1 rest, quotaLoop q user evs wg = some (wg1, rest) →
    sumHeld wg.cMap = wg.total → sumHeld wg1.cMap = wg1.total := by
  induction evs with
  | nil => intro wg wg1 rest h; exact fun _ => absurd h (by simp [quotaLoop])
  | cons e tail ih =>
    intro wg wg1 rest h hs
    cases e with
    | reg =>
      rw [quotaLoop] at h
      exact ih _ _ _ h (sumHeld_applyEv wg .reg hs)
    | rel u =>
      rw [quotaLoop] at h
      by_cases hc : get (applyEv wg (.rel u)) user < (q : Int)
      · rw [if_pos hc] at h
        simp only [Option.some.injEq, Prod.mk.injEq] at h
        obtain ⟨h1, h2⟩ := h
        subst h1
        exact sumHeld_applyEv wg (.rel u) hs
      · rw [if_neg hc] at h
        exact ih _ _ _ h (sumHeld_applyEv wg (.rel u) hs)

theorem WaitLoop_fields : ∀ (fuel : Nat) (wg wg1 : WgThrottler),
    WaitLoop fuel wg = some wg1 →
    wg1.cMap = wg.cMap ∧ wg1.total = wg.total ∧ wg1.last = wg.last ∧ wg1.max = wg.max
  | 0, wg, wg1, h => absurd h (by simp [WaitLoop])
  | fuel + 1, wg, wg1, h => by
    simp only [WaitLoop] at h
    split_ifs at h with h1 h2
    · simp only [Option.some.injEq] at h
      subst h
      exact ⟨rfl, rfl, rfl, rfl⟩
    · exact WaitLoop_fields fuel { wg with parked := wg.parked - 1 } wg1 h

theorem Wait_fields (wg wg1 : WgThrottler) (h : Wait wg = some wg1) :
    wg1.cMap = wg.cMap ∧ wg1.total = wg.total ∧ wg1.last = wg.last ∧ wg1.max = wg.max :=
  WaitLoop_fields wg.parked wg wg1 h

theorem NextAt_sum (q user : Nat) (evs : List WEv) (wg wg1 : WgThrottler)
    (h : NextAt q user evs wg = some wg1) (hs : sumHeld wg.cMap = wg.total) :
    sumHeld wg1.cMap = wg1.total := by
  unfold NextAt at h
  by_cases hc : get wg user < (q : Int)
  · rw [if_pos hc] at h
    exact totalLoop_sum user evs wg wg1 h hs
  · rw [if_neg hc] at h
    cases hq : quotaLoop q user evs wg with
    | none => rw [hq] at h; exact absurd h (by simp)
    | some pr =>
      rw [hq] at h
      exact totalLoop_sum user pr.2 pr.1 wg1 h
        (quotaLoop_sum q user evs wg pr.1 pr.2 (by rw [hq]) hs)

theorem dec_sum (wg : WgThrottler) (u : Nat) (hs : sumHeld wg.cMap = wg.total) :
    sumHeld (dec wg u).1.cMap = (dec wg u).1.total := by
  have key : sumHeld (mapAdd wg.cMap u (-1)) = wg.total - 1 := by
    rw [sumHeld_mapAdd, hs]; ring
  by_cases hc : wg.chClosed <;> simp [dec, hc, key]

theorem runOp_sum (wg : WgThrottler) (op : POp) (wg1 : WgThrottler)
    (h : runOp wg op = some wg1) (hs : sumHeld wg.cMap = wg.total) :
    sumHeld wg1.cMap = wg1.total := by
  cases op with
  | use =>
    simp only [runOp, Option.some.injEq] at h
    subst h
    unfold Use
    split_ifs
    · exact hs
    · show sumHeld (useState wg).cMap = (useState wg).total
      rw [sumHeld_useState, (useState_fields wg).1, hs]
  | next u evs => exact NextAt_sum (quotaOf wg) u evs wg wg1 h hs
  | done u =>
    simp only [runOp, Done] at h
    split_ifs at h with hp
    simp only [Option.some.injEq] at h
    subst h
    exact dec_sum wg u hs
  | wait =>
    rcases Wait_fields wg wg1 h with ⟨h1, h2, _, _⟩
    rw [h1, h2, hs]

theorem runOps_sum : ∀ (ops : List POp) (wg wg1 : WgThrottler),
    runOps ops wg = some wg1 → sumHeld wg.cMap = wg.total →
    sumHeld wg1.cMap = wg1.total
  | [], wg, wg1, h, hs => by
    simp only [runOps, Option.some.injEq] at h
    subst h; exact hs
  | op :: rest, wg, wg1, h, hs => by
    simp only [runOps] at h
    cases hop : runOp wg op with
    | none => rw [hop] at h; exact absurd h (by simp)
    | some wgm =>
      rw [hop] at h
      exact runOps_sum rest wgm wg1 h (runOp_sum wg op wgm hop hs)

theorem contextMaxF_eq_ceil (m n : Nat) (hn : 1 ≤ n) :
    contextMaxF m n = (m + n - 1) / n := by
  have hdm := Nat.div_add_mod m n
  have hmod : m % n < n := Nat.mod_lt _ (by omega)
  unfold contextMaxF
  generalize hq : m / n = q at hdm ⊢
  generalize hr0 : m % n = r at hdm hmod ⊢
  by_cases hr : r > 0
  · rw [if_pos hr]
    have e1 : n * (q + 1) = n * q + n := by ring
    have h2 : m + n - 1 = (r - 1) + n * (q + 1) := by omega
    rw [h2, Nat.add_mul_div_left _ _ (show 0 < n by omega),
      Nat.div_eq_of_lt (show r - 1 < n by omega)]
    omega
  · rw [if_neg hr]
    have h2 : m + n - 1 = (n - 1) + n * q := by omega
    rw [h2, Nat.add_mul_div_left _ _ (show 0 < n by omega),
      Nat.div_eq_of_lt (show n - 1 < n by omega)]
    omega

theorem contextMaxF_pos (m n : Nat) (hm : 1 ≤ m) (hn : 1 ≤ n) :
    1 ≤ contextMaxF m n := by
  unfold contextMaxF
  by_cases hr : m % n > 0
  · rw [if_pos hr]
    exact Nat.le_add_left 1 (m / n)
  · rw [if_neg hr, Nat.add_zero]
    have hdm := Nat.div_add_mod m n
    rcases Nat.eq_zero_or_pos (m / n) with h | h
    · rw [h, Nat.mul_zero, Nat.zero_add] at hdm
      omega
    · exact h

theorem Inv_useState (wg : WgThrottler) (h : Inv wg) : Inv (useState wg) := by
  obtain ⟨h1, h2⟩ := h
  unfold Inv useState
  split_ifs with hc
  · exact ⟨h1, h2⟩
  · constructor
    · show (wg.cMap ++ [(wg.last + 1, 0)]).length ≤ wg.max
      rw [List.length_append]
      simp only [List.length_singleton]
      omega
    · intro p hp
      show p.1 ≤ wg.last + 1
      rcases List.mem_append.1 hp with hp2 | hp2
      · exact Nat.le_succ_of_le (h2 p hp2)
      · simp only [List.mem_singleton] at hp2
        simp [hp2]

theorem Inv_mapAdd (wg : WgThrottler) (u : Nat) (d : Int) (hI : Inv wg)
    (hk : hasKey wg.cMap u = true) :
    (mapAdd wg.cMap u d).length ≤ wg.max ∧ ∀ p ∈ mapAdd wg.cMap u d, p.1 ≤ wg.last := by
  obtain ⟨h1, h2⟩ := hI
  constructor
  · rw [length_mapAdd_of_hasKey wg.cMap u d hk]
    exact h1
  · intro p hp
    rcases mem_key_mapAdd wg.cMap u d p hp with he | ⟨q, hq, he⟩
    · rcases (hasKey_iff_exists wg.cMap u).1 hk with ⟨q, hq, hqe⟩
      rw [he, ← hqe]
      exact h2 q hq
    · rw [he]
      exact h2 q hq

theorem Inv_inc (wg : WgThrottler) (u : Nat) (hI : Inv wg)
    (hk : hasKey wg.cMap u = true) : Inv (inc wg u) :=
  Inv_mapAdd wg u 1 hI hk

theorem Inv_rel (wg : WgThrottler) (u : Nat) (hI : Inv wg)
    (hk : hasKey wg.cMap u = true) : Inv (applyEv wg (.rel u)) :=
  Inv_mapAdd wg u (-1) hI hk

theorem hasKey_useState (wg : WgThrottler) (u : Nat)
    (h : hasKey wg.cMap u = true) : hasKey (useState wg).cMap u = true := by
  unfold useState
  split_ifs
  · exact h
  · show hasKey (wg.cMap ++ [(wg.last + 1, 0)]) u = true
    rw [hasKey_append, h]
    rfl

theorem hasKey_applyEv (wg : WgThrottler) (e : WEv) (u : Nat)
    (h : hasKey wg.cMap u = true) : hasKey (applyEv wg e).cMap u = true := by
  cases e with
  | reg => exact hasKey_useState wg u h
  | rel v => exact hasKey_mapAdd_mono wg.cMap v u (-1) h

theorem Inv_applyEv (wg : WgThrottler) (e : WEv) (hI : Inv wg)
    (hv : ∀ u, e = WEv.rel u → hasKey wg.cMap u = true) : Inv (applyEv wg e) := by
  cases e with
  | reg => exact Inv_useState wg hI
  | rel v => exact Inv_rel wg v hI (hv v rfl)

theorem quotaLoop_keeps (q user : Nat) (evs : List WEv) :
    ∀ wg wg1 rest, quotaLoop q user evs wg = some (wg1, rest) →
    validEvs wg evs = true → Inv wg → hasKey wg.cMap user = true →
    Inv wg1 ∧ validEvs wg1 rest = true ∧ hasKey wg1.cMap user = true := by
  induction evs with
  | nil => intro wg wg1 rest h; exact fun _ _ _ => absurd h (by simp [quotaLoop])
  | cons e tail ih =>
    intro wg wg1 rest h hv hI hk
    cases e with
    | reg =>
      rw [quotaLoop] at h
      simp only [validEvs] at hv
      exact ih _ _ _ h hv (Inv_applyEv wg .reg hI (fun u hu => by cases hu))
        (hasKey_applyEv wg .reg user hk)
    | rel v =>
      rw [quotaLoop] at h
      simp only [validEvs, Bool.and_eq_true] at hv
      have hI1 : Inv (applyEv wg (.rel v)) :=
        Inv_applyEv wg (.rel v) hI (fun u hu => by cases hu; exact hv.1)
      have hk1 : hasKey (applyEv wg (.rel v)).cMap user = true :=
        hasKey_applyEv wg (.rel v) user hk
      by_cases hc : get (applyEv wg (.rel v)) user < (q : Int)
      · rw [if_pos hc] at h
        simp only [Option.some.injEq, Prod.mk.injEq] at h
        obtain ⟨e1, e2⟩ := h
        subst e1
        subst e2
        exact ⟨hI1, hv.2, hk1⟩
      · rw [if_neg hc] at h
        exact ih _ _ _ h hv.2 hI1 hk1

theorem totalLoop_keeps (user : Nat) (evs : List WEv) :
    ∀ wg wg1, totalLoop user evs wg = some wg1 →
    validEvs wg evs = true → Inv wg → hasKey wg.cMap user = true → Inv wg1 := by
  induction evs with
  | nil =>
    intro wg wg1 h hv hI hk
    rw [totalLoop] at h
    by_cases hc : wg.total < (wg.max : Int)
    · rw [if_pos hc] at h
      simp only [Option.some.injEq] at h
      subst h
      exact Inv_inc wg user hI hk
    · rw [if_neg hc] at h
      exact absurd h (by simp)
  | cons e tail ih =>
    intro wg wg1 h hv hI hk
    rw [totalLoop] at h
    by_cases hc : wg.total < (wg.max : Int)
    · rw [if_pos hc] at h
      simp only [Option.some.injEq] at h
      subst h
      exact Inv_inc wg user hI hk
    · rw [if_neg hc] at h
      cases e with
      | reg =>
        simp only [validEvs] at hv
        exact ih _ _ h hv (Inv_applyEv wg .reg hI (fun u hu => by cases hu))
          (hasKey_applyEv wg .reg user hk)
      | rel v =>
        simp only [validEvs, Bool.and_eq_true] at hv
        exact ih _ _ h hv.2
          (Inv_applyEv wg (.rel v) hI (fun u hu => by cases hu; exact hv.1))
          (hasKey_applyEv wg (.rel v) user hk)

theorem NextAt_keeps (q user : Nat) (evs : List WEv) (wg wg1 : WgThrottler)
    (h : NextAt q user evs wg = some wg1) (hv : validEvs wg evs = true)
    (hI : Inv wg) (hk : hasKey wg.cMap user = true) : Inv wg1 := by
  unfold NextAt at h
  by_cases hc : get wg user < (q : Int)
  · rw [if_pos hc] at h
    exact totalLoop_keeps user evs wg wg1 h hv hI hk
  · rw [if_neg hc] at h
    cases hq : quotaLoop q user evs wg with
    | none => rw [hq] at h; exact absurd h (by simp)
    | some pr =>
      rw [hq] at h
      obtain ⟨hI1, hv1, hk1⟩ :=
        quotaLoop_keeps q user evs wg pr.1 pr.2 (by rw [hq]) hv hI hk
      exact totalLoop_keeps user pr.2 pr.1 wg1 h hv1 hI1 hk1

theorem Inv_Wait (wg wg1 : WgThrottler) (h : Wait wg = some wg1) (hI : Inv wg) :
    Inv wg1 := by
  obtain ⟨h1, h2, h3, h4⟩ := Wait_fields wg wg1 h
  obtain ⟨i1, i2⟩ := hI
  constructor
  · rw [h1, h4]
    exact i1
  · intro p hp
    rw [h3]
    refine i2 p ?_
    rw [← h1]
    exact hp

theorem runVOp_Inv (wg : WgThrottler) (op : POp) (wg1 : WgThrottler)
    (h : runVOp wg op = some wg1) (hI : Inv wg) : Inv wg1 := by
  cases op with
  | use =>
    simp only [runVOp, Option.some.injEq] at h
    subst h
    unfold Use
    split_ifs with hc
    · exact hI
    · exact Inv_useState wg hI
  | next u evs =>
    simp only [runVOp] at h
    split_ifs at h with hg
    simp only [Bool.and_eq_true] at hg
    exact NextAt_keeps (quotaOf wg) u evs wg wg1 h hg.2 hI hg.1
  | done u =>
    simp only [runVOp] at h
    split_ifs at h with hg
    simp only [Bool.and_eq_true] at hg
    have hcc : wg.chClosed = false := by
      have := hg.2
      revert this
      cases wg.chClosed <;> simp
    simp only [Done, dec, hcc] at h
    simp only [Bool.false_eq_true, if_false, Option.some.injEq] at h
    subst h
    exact Inv_mapAdd wg u (-1) hI hg.1
  | wait => exact Inv_Wait wg wg1 h hI

theorem runVOps_Inv : ∀ (ops : List POp) (wg wg1 : WgThrottler),
    runVOps ops wg = some wg1 → Inv wg → Inv wg1
  | [], wg, wg1, h, hI => by
    simp only [runVOps, Option.some.injEq] at h
    subst h
    exact hI
  | op :: rest, wg, wg1, h, hI => by
    simp only [runVOps] at h
    cases hop : runVOp wg op with
    | none => rw [hop] at h; exact absurd h (by simp)
    | some wgm =>
      rw [hop] at h
      exact runVOps_Inv rest wgm wg1 h (runVOp_Inv wg op wgm hop hI)

theorem Inv_start (max : Nat) : Inv (NewThrottler max) := by
  constructor
  · show ([] : List (Nat × Int)).length ≤ max
    simp
  · intro p hp
    simp only [NewThrottler, List.not_mem_nil] at hp

theorem not_hasKey_succ_last (wg : WgThrottler) (h : Inv wg) :
    hasKey wg.cMap (wg.last + 1) = false := by
  cases hck : hasKey wg.cMap (wg.last + 1) with
  | false => rfl
  | true =>
    rcases (hasKey_iff_exists _ _).1 hck with ⟨p, hp, he⟩
    have := h.2 p hp
    omega

end Princ

namespace Glob

theorem GStep_max {w w1 : WgThrottler} (hs : GStep w w1) : w1.max = w.max := by
  cases hs <;> rfl

theorem GReach_max (max : Nat) : ∀ wg, GReach max wg → wg.max = max := by
  intro wg h
  induction h with
  | start => rfl
  | step a hs ih => rw [GStep_max hs]; exact ih

theorem GStep_bounds {w w1 : WgThrottler} (hs : GStep w w1) (hmax : 1 ≤ w.max)
    (ih : 0 ≤ w.c ∧ w.c ≤ (w.max : Int)) : 0 ≤ w1.c ∧ w1.c ≤ (w1.max : Int) := by
  cases hs with
  | enter hc =>
    show 0 ≤ w.c + 1 ∧ w.c + 1 ≤ (w.max : Int)
    omega
  | recvNext hc hp =>
    show 0 ≤ w.c - 1 ∧ w.c - 1 ≤ (w.max : Int)
    omega
  | done hw => exact ih
  | recvWait hw hc hp =>
    show 0 ≤ w.c - 1 ∧ w.c - 1 ≤ (w.max : Int)
    omega

theorem GReach_bounds (max : Nat) (hmax : 1 ≤ max) :
    ∀ wg, GReach max wg → 0 ≤ wg.c ∧ wg.c ≤ (wg.max : Int) := by
  intro wg h
  induction h with
  | start =>
    constructor
    · exact le_refl 0
    · show (0 : Int) ≤ (max : Int)
      omega
  | step a hs ih =>
    exact GStep_bounds hs (by rw [GReach_max max _ a]; exact hmax) ih

theorem GStep_count {w w1 : WgThrottler} (hs : GStep w w1)
    (ih : w.c = (w.wgCount : Int) + (w.parked : Int)) :
    w1.c = (w1.wgCount : Int) + (w1.parked : Int) := by
  cases hs with
  | enter hc =>
    show w.c + 1 = ((w.wgCount + 1 : Nat) : Int) + (w.parked : Int)
    omega
  | recvNext hc hp =>
    show w.c - 1 = (w.wgCount : Int) + ((w.parked - 1 : Nat) : Int)
    omega
  | done hw =>
    show w.c = ((w.wgCount - 1 : Nat) : Int) + ((w.parked + 1 : Nat) : Int)
    omega
  | recvWait hw hc hp =>
    show w.c - 1 = (w.wgCount : Int) + ((w.parked - 1 : Nat) : Int)
    omega

theorem GReach_count (max : Nat) :
    ∀ wg, GReach max wg → wg.c = (wg.wgCount : Int) + (wg.parked : Int) := by
  intro wg h
  induction h with
  | start => rfl
  | step a hs ih => exact GStep_count hs ih

theorem WaitLoop_drain (fuel : Nat) : ∀ wg : WgThrottler,
    wg.c = (wg.parked : Int) → wg.parked ≤ fuel →
    WaitLoop fuel wg = some { wg with c := 0, parked := 0 } := by
  induction fuel with
  | zero =>
    intro wg hc hf
    have hp : wg.parked = 0 := by omega
    have hc0 : wg.c = 0 := by omega
    rw [WaitLoop, if_pos (by omega)]
    obtain ⟨c, mx, w, p⟩ := wg
    simp only at hc0 hp
    subst hc0
    subst hp
    rfl
  | succ f ih =>
    intro wg hc hf
    by_cases h0 : wg.c ≤ 0
    · have hp : wg.parked = 0 := by omega
      have hc0 : wg.c = 0 := by omega
      rw [WaitLoop, if_pos h0]
      obtain ⟨c, mx, w, p⟩ := wg
      simp only at hc0 hp
      subst hc0
      subst hp
      rfl
    · have hp : ¬ wg.parked = 0 := by omega
      rw [WaitLoop, if_neg h0]
      show (if wg.parked = 0 then none
        else WaitLoop f { wg with c := wg.c - 1, parked := wg.parked - 1 }) = _
      rw [if_neg hp]
      rw [ih { wg with c := wg.c - 1, parked := wg.parked - 1 }
        (by show wg.c - 1 = ((wg.parked - 1 : Nat) : Int); omega)
        (by show wg.parked - 1 ≤ f; omega)]

theorem Next_fast (wg : WgThrottler) (h : wg.c < (wg.max : Int)) :
    Next wg = some { wg with c := wg.c + 1, wgCount := wg.wgCount + 1 } := by
  rw [Next]
  cases hp : wg.parked with
  | zero => rw [NextLoop, if_pos h, hp]
  | succ f => rw [NextLoop, if_pos h, hp]

theorem nextK_all (k : Nat) : ∀ wg : WgThrottler,
    wg.c + (k : Int) ≤ (wg.max : Int) →
    nextK k wg = some { wg with c := wg.c + (k : Int), wgCount := wg.wgCount + k } := by
  induction k with
  | zero =>
    intro wg h
    obtain ⟨c, mx, w, p⟩ := wg
    simp [nextK]
  | succ k ih =>
    intro wg h
    obtain ⟨c, mx, w, p⟩ := wg
    simp only at h
    rw [nextK, Next_fast ⟨c, mx, w, p⟩ (by show c < (mx : Int); push_cast at h; omega)]
    show nextK k ⟨c + 1, mx, w + 1, p⟩ = _
    rw [ih ⟨c + 1, mx, w + 1, p⟩ (by show c + 1 + (k : Int) ≤ (mx : Int); push_cast at h; omega)]
    have e1 : c + 1 + (k : Int) = c + ((k + 1 : Nat) : Int) := by push_cast; ring
    have e2 : w + 1 + k = w + (k + 1) := by omega
    show (some ⟨c + 1 + (k : Int), mx, w + 1 + k, p⟩ : Option WgThrottler) =
      some ⟨c + ((k + 1 : Nat) : Int), mx, w + (k + 1), p⟩
    rw [e1, e2]

theorem doneK_all (k : Nat) : ∀ wg : WgThrottler, k ≤ wg.wgCount →
    doneK k wg = some { wg with wgCount := wg.wgCount - k, parked := wg.parked + k } := by
  induction k with
  | zero =>
    intro wg h
    obtain ⟨c, mx, w, p⟩ := wg
    simp [doneK]
  | succ k ih =>
    intro wg h
    obtain ⟨c, mx, w, p⟩ := wg
    simp only at h
    rw [doneK, show Done ⟨c, mx, w, p⟩ = some ⟨c, mx, w - 1, p + 1⟩ from by
      rw [Done, if_neg (by show ¬ w = 0; omega)]]
    show doneK k ⟨c, mx, w - 1, p + 1⟩ = _
    rw [ih ⟨c, mx, w - 1, p + 1⟩ (by show k ≤ w - 1; omega)]
    have e2 : w - 1 - k = w - (k + 1) := by omega
    have e3 : p + 1 + k = p + (k + 1) := by omega
    show (some ⟨c, mx, w - 1 - k, p + 1 + k⟩ : Option WgThrottler) =
      some ⟨c, mx, w - (k + 1), p + (k + 1)⟩
    rw [e2, e3]

theorem roundTrip_id (k max : Nat) (hmax : 1 ≤ max) (hk : k < max) :
    roundTrip k (NewThrottler max) = some (NewThrottler max) := by
  have h1 : nextK k (NewThrottler max) = some ⟨(k : Int), max, k, 0⟩ := by
    rw [nextK_all k (NewThrottler max) (by show (0 : Int) + (k : Int) ≤ (max : Int); omega)]
    show (some ⟨(0 : Int) + (k : Int), max, 0 + k, 0⟩ : Option WgThrottler) =
      some ⟨(k : Int), max, k, 0⟩
    rw [show (0 : Int) + (k : Int) = (k : Int) from by ring, show 0 + k = k from by omega]
  have h2 : doneK k (⟨(k : Int), max, k, 0⟩ : WgThrottler) = some ⟨(k : Int), max, 0, k⟩ := by
    rw [doneK_all k ⟨(k : Int), max, k, 0⟩ (le_refl k)]
    show (some ⟨(k : Int), max, k - k, 0 + k⟩ : Option WgThrottler) =
      some ⟨(k : Int), max, 0, k⟩
    rw [show k - k = 0 from by omega, show 0 + k = k from by omega]
  have h3 : Wait (⟨(k : Int), max, 0, k⟩ : WgThrottler) = some (NewThrottler max) := by
    rw [Wait, if_neg (by show ¬ (0 : Nat) ≠ 0; simp)]
    show WaitLoop k ⟨(k : Int), max, 0, k⟩ = some (NewThrottler max)
    rw [WaitLoop_drain k ⟨(k : Int), max, 0, k⟩ rfl (le_refl k)]
    rfl
  rw [roundTrip, h1]
  show (doneK k ⟨(k : Int), max, k, 0⟩).bind Wait = some (NewThrottler max)
  rw [h2]
  exact h3

end Glob

/-- C1: a completed per-principal Next admits exactly one unit, and only from
an intermediate state in which the calling principal holds strictly less than
the quota of the attempt (ceil(max/N) computed at call entry, per the spec
recomputed on every call) and the global total is strictly below max; the
admission is the atomic `inc`, which raises the held count and the total by
one each, in lock-step. -/
theorem c1_next_admission_guard (user : Nat) (wg : Princ.WgThrottler)
    (evs : List Princ.WEv) (wg1 : Princ.WgThrottler)
    (h : Princ.NextRun user wg evs = some wg1) :
    ∃ t : Princ.WgThrottler,
      Princ.get t user < (Princ.quotaOf wg : Int) ∧
      t.total < (t.max : Int) ∧
      wg1 = Princ.inc t user ∧
      Princ.get wg1 user = Princ.get t user + 1 ∧
      wg1.total = t.total + 1 := by
  unfold Princ.NextRun Princ.NextAt at h
  by_cases hc : Princ.get wg user < (Princ.quotaOf wg : Int)
  · rw [if_pos hc] at h
    rcases Princ.totalLoop_admits user evs wg wg1 h with ⟨t, h1, h2, h3, h4⟩
    exact ⟨t, lt_of_le_of_lt h3 hc, h2, h1,
      by rw [h1]; exact Princ.get_inc_self t user, by rw [h1]; rfl⟩
  · rw [if_neg hc] at h
    cases hq : Princ.quotaLoop (Princ.quotaOf wg) user evs wg with
    | none => rw [hq] at h; exact absurd h (by simp)
    | some pr =>
      rw [hq] at h
      obtain ⟨hx, hm⟩ :=
        Princ.quotaLoop_exit (Princ.quotaOf wg) user evs wg pr.1 pr.2 (by rw [hq])
      rcases Princ.totalLoop_admits user pr.2 pr.1 wg1 h with ⟨t, h1, h2, h3, h4⟩
      exact ⟨t, lt_of_le_of_lt h3 hx, h2, h1,
        by rw [h1]; exact Princ.get_inc_self t user, by rw [h1]; rfl⟩

/-- Witness for C1: a pool with capacity 2, one registered principal, one
Next call that completes immediately. -/
theorem c1_next_admission_guard_witness :
    ∃ t : Princ.WgThrottler,
      Princ.get t 1 < (Princ.quotaOf ⟨[(1, 0)], 1, 0, 2, 0, false⟩ : Int) ∧
      t.total < (t.max : Int) ∧
      (⟨[(1, 1)], 1, 1, 2, 0, false⟩ : Princ.WgThrottler) = Princ.inc t 1 ∧
      Princ.get ⟨[(1, 1)], 1, 1, 2, 0, false⟩ 1 = Princ.get t 1 + 1 ∧
      (⟨[(1, 1)], 1, 1, 2, 0, false⟩ : Princ.WgThrottler).total = t.total + 1 :=
  c1_next_admission_guard 1 ⟨[(1, 0)], 1, 0, 2, 0, false⟩ []
    ⟨[(1, 1)], 1, 1, 2, 0, false⟩ (by decide)

/-- Counterexample for C2: the source caches the quota computed at call
entry and does not re-read it after wakes.  Reachable pool: capacity 3, one
principal holding 3 (its quota while alone).  During the blocked fourth
Next, a second principal registers (fresh quota would become ceil(3/2)=2)
and one unit is released.  The source admits (held count back to 3 against
the cached quota 3), while the spec-worded fresh-quota semantics stays
blocked. -/
theorem c2_quota_recompute_counterexample :
    Princ.runOps [.use, .next 1 [], .next 1 [], .next 1 []] (Princ.NewThrottler 3) =
      some ⟨[(1, 3)], 1, 3, 3, 0, false⟩ ∧
    Princ.NextRun 1 ⟨[(1, 3)], 1, 3, 3, 0, false⟩ [.reg, .rel 1] =
      some ⟨[(1, 3), (2, 0)], 2, 3, 3, 0, false⟩ ∧
    Princ.NextRunFresh 1 ⟨[(1, 3)], 1, 3, 3, 0, false⟩ [.reg, .rel 1] = none :=
  ⟨by decide, by decide, by decide⟩

/-- C2 amended: on every attempt the quota is computed once, at call entry,
as ceil(max/N) with N the registry size at entry (the division-plus-bump of
the source equals the ceiling (max+N-1)/N whenever N is at least 1), and
that single entry value is used unchanged at every re-check while the
attempt blocks; it is not re-read after wakes. -/
theorem c2_quota_cached_amended (user : Nat) (wg : Princ.WgThrottler)
    (evs : List Princ.WEv) (h : 1 ≤ wg.cMap.length) :
    Princ.NextRun user wg evs =
      Princ.NextAt ((wg.max + wg.cMap.length - 1) / wg.cMap.length) user evs wg := by
  unfold Princ.NextRun Princ.quotaOf
  rw [Princ.contextMaxF_eq_ceil wg.max wg.cMap.length h]

/-- Witness for the amended C2 at a concrete pool with one principal. -/
theorem c2_quota_cached_amended_witness :
    Princ.NextRun 1 ⟨[(1, 0)], 1, 0, 2, 0, false⟩ [] =
      Princ.NextAt ((2 + 1 - 1) / 1) 1 [] ⟨[(1, 0)], 1, 0, 2, 0, false⟩ :=
  c2_quota_cached_amended 1 ⟨[(1, 0)], 1, 0, 2, 0, false⟩ [] (by decide)

/-- Counterexample for C3: in the global controller, Done does not decrement
the counter `c` (the global total); it only sends `-1`, which decrements `c`
when some receiver consumes it.  At the reachable state after one admission,
Done completes and `c` is unchanged. -/
theorem c3_global_release_counterexample :
    Glob.GReach 5 ⟨1, 5, 1, 0⟩ ∧
    Glob.Done ⟨1, 5, 1, 0⟩ = some ⟨1, 5, 0, 1⟩ ∧
    (⟨1, 5, 0, 1⟩ : Glob.WgThrottler).c = (⟨1, 5, 1, 0⟩ : Glob.WgThrottler).c :=
  ⟨Glob.GReach.step Glob.GReach.start (Glob.GStep.enter (Glob.NewThrottler 5) (by decide)),
   by decide, rfl⟩

/-- C3 amended: the per-principal Release decrements the held count of the
named principal and the global total and parks exactly one wake signal; the
global Release decrements the pending-unit counter and parks exactly one
`-1` signal while leaving the total `c` unchanged until a waiter consumes
the signal. -/
theorem c3_release_amended :
    (∀ (wg : Princ.WgThrottler) (u : Nat), wg.chClosed = false →
      (Princ.dec wg u).2 = false ∧
      Princ.get (Princ.dec wg u).1 u = Princ.get wg u - 1 ∧
      (Princ.dec wg u).1.total = wg.total - 1 ∧
      (Princ.dec wg u).1.parked = wg.parked + 1) ∧
    (∀ wg : Glob.WgThrottler, 1 ≤ wg.wgCount →
      ∃ wg1, Glob.Done wg = some wg1 ∧ wg1.c = wg.c ∧
        wg1.parked = wg.parked + 1 ∧ wg1.wgCount = wg.wgCount - 1) := by
  constructor
  · intro wg u hcc
    have hd : Princ.dec wg u =
        ({ wg with
            cMap := Princ.mapAdd wg.cMap u (-1)
            total := wg.total - 1
            parked := wg.parked + 1 }, false) := by
      simp [Princ.dec, hcc]
    rw [hd]
    refine ⟨rfl, ?_, rfl, rfl⟩
    show Princ.mapGet (Princ.mapAdd wg.cMap u (-1)) u = Princ.mapGet wg.cMap u - 1
    rw [Princ.mapGet_mapAdd_self]
    ring
  · intro wg hw
    refine ⟨{ wg with wgCount := wg.wgCount - 1, parked := wg.parked + 1 },
      ?_, rfl, rfl, rfl⟩
    rw [Glob.Done, if_neg (by omega)]

/-- Witness for the amended C3 at concrete states of both controllers. -/
theorem c3_release_amended_witness :
    ((Princ.dec ⟨[(1, 1)], 1, 1, 2, 0, false⟩ 1).2 = false ∧
      Princ.get (Princ.dec ⟨[(1, 1)], 1, 1, 2, 0, false⟩ 1).1 1 =
        Princ.get ⟨[(1, 1)], 1, 1, 2, 0, false⟩ 1 - 1 ∧
      (Princ.dec ⟨[(1, 1)], 1, 1, 2, 0, false⟩ 1).1.total =
        (⟨[(1, 1)], 1, 1, 2, 0, false⟩ : Princ.WgThrottler).total - 1 ∧
      (Princ.dec ⟨[(1, 1)], 1, 1, 2, 0, false⟩ 1).1.parked =
        (⟨[(1, 1)], 1, 1, 2, 0, false⟩ : Princ.WgThrottler).parked + 1) ∧
    (∃ wg1, Glob.Done ⟨1, 5, 1, 0⟩ = some wg1 ∧
      wg1.c = (⟨1, 5, 1, 0⟩ : Glob.WgThrottler).c ∧
      wg1.parked = (⟨1, 5, 1, 0⟩ : Glob.WgThrottler).parked + 1 ∧
      wg1.wgCount = (⟨1, 5, 1, 0⟩ : Glob.WgThrottler).wgCount - 1) :=
  ⟨c3_release_amended.1 ⟨[(1, 1)], 1, 1, 2, 0, false⟩ 1 rfl,
   c3_release_amended.2 ⟨1, 5, 1, 0⟩ (by decide)⟩

/-- C4: after every completed sequence of per-principal operations (Use,
Next, Done, Wait) starting from a fresh pool, the sum of all registered
held counts equals the global total — including sequences that misuse
handles, since the paired counter updates of inc and dec preserve the
invariant unconditionally. -/
theorem c4_sum_held_eq_total (ops : List Princ.POp) (max : Nat)
    (wg : Princ.WgThrottler)
    (h : Princ.runOps ops (Princ.NewThrottler max) = some wg) :
    Princ.sumHeld wg.cMap = wg.total :=
  Princ.runOps_sum ops (Princ.NewThrottler max) wg h rfl

/-- Witness for C4: register, admit, release on a pool of capacity 2. -/
theorem c4_sum_held_eq_total_witness :
    Princ.sumHeld (⟨[(1, 0)], 1, 0, 2, 1, false⟩ : Princ.WgThrottler).cMap =
      (⟨[(1, 0)], 1, 0, 2, 1, false⟩ : Princ.WgThrottler).total :=
  c4_sum_held_eq_total [.use, .next 1 [], .done 1] 2
    ⟨[(1, 0)], 1, 0, 2, 1, false⟩ (by decide)

/-- C5: at every instant of every execution of the global controller built
with capacity max of at least 1 — every state reachable through the atomic
transitions of Next, Done and Wait — the outstanding count satisfies
0 ≤ c ≤ max. -/
theorem c5_total_bounds (max : Nat) (wg : Glob.WgThrottler) (hmax : 1 ≤ max)
    (h : Glob.GReach max wg) : 0 ≤ wg.c ∧ wg.c ≤ (max : Int) := by
  obtain ⟨h1, h2⟩ := Glob.GReach_bounds max hmax wg h
  rw [Glob.GReach_max max wg h] at h2
  exact ⟨h1, h2⟩

/-- Witness for C5 at the freshly constructed pool of capacity 1. -/
theorem c5_total_bounds_witness :
    0 ≤ (Glob.NewThrottler 1).c ∧ (Glob.NewThrottler 1).c ≤ ((1 : Nat) : Int) :=
  c5_total_bounds 1 (Glob.NewThrottler 1) (by decide) Glob.GReach.start

/-- C6, evaluated at the failing input: on the per-principal pool with no
admissions every admitted unit (there are none) has been released and total
is 0, yet Wait blocks forever (`for range ch` never receives because no dec
ever sends), contradicting the claim and the code comment calling Wait
functionally equivalent to the Wait of a sync.WaitGroup; the global
controller behaves as claimed and returns at once. -/
theorem c6_wait_eval :
    Princ.Wait (Princ.NewThrottler 1) = none ∧
    (Princ.NewThrottler 1).total = 0 ∧
    Glob.Wait (Glob.NewThrottler 1) = some (Glob.NewThrottler 1) :=
  ⟨by decide, by decide, by decide⟩

/-- C7: on every pool reachable by handle-disciplined use, Use never blocks
(it is a total function of the state), refuses exactly when the registry
size equals max, and otherwise returns a fresh handle — one not present in
the registry before the call — registered with a zero held count. -/
theorem c7_use_refusal (ops : List Princ.POp) (max : Nat) (wg : Princ.WgThrottler)
    (h : Princ.runVOps ops (Princ.NewThrottler max) = some wg) :
    ((Princ.Use wg).1 = none ↔ wg.cMap.length = wg.max) ∧
    (∀ hnew, (Princ.Use wg).1 = some hnew →
      Princ.hasKey wg.cMap hnew = false ∧
      Princ.hasKey (Princ.Use wg).2.cMap hnew = true ∧
      Princ.get (Princ.Use wg).2 hnew = 0 ∧
      (Princ.Use wg).2.cMap.length = wg.cMap.length + 1) := by
  have hI := Princ.runVOps_Inv ops (Princ.NewThrottler max) wg h (Princ.Inv_start max)
  obtain ⟨i1, i2⟩ := hI
  constructor
  · constructor
    · intro hn
      by_cases hc : wg.cMap.length ≥ wg.max
      · omega
      · unfold Princ.Use at hn
        rw [if_neg hc] at hn
        exact absurd hn (by simp)
    · intro he
      unfold Princ.Use
      rw [if_pos (by omega : wg.cMap.length ≥ wg.max)]
  · intro hnew hn
    by_cases hc : wg.cMap.length ≥ wg.max
    · unfold Princ.Use at hn
      rw [if_pos hc] at hn
      exact absurd hn (by simp)
    · have h2 : (Princ.Use wg).2 = Princ.useState wg := by
        unfold Princ.Use
        rw [if_neg hc]
      have hus : Princ.useState wg =
          { wg with last := wg.last + 1, cMap := wg.cMap ++ [(wg.last + 1, 0)] } := by
        unfold Princ.useState
        rw [if_neg hc]
      unfold Princ.Use at hn
      rw [if_neg hc] at hn
      simp only [Option.some.injEq] at hn
      subst hn
      refine ⟨Princ.not_hasKey_succ_last wg ⟨i1, i2⟩, ?_, ?_, ?_⟩
      · rw [h2, hus]
        show Princ.hasKey (wg.cMap ++ [(wg.last + 1, 0)]) (wg.last + 1) = true
        rw [Princ.hasKey_append, Princ.not_hasKey_succ_last wg ⟨i1, i2⟩]
        simp [Princ.hasKey]
      · rw [h2, Princ.get_useState]
        exact Princ.mapGet_eq_zero_of_hasKey wg.cMap (wg.last + 1)
          (Princ.not_hasKey_succ_last wg ⟨i1, i2⟩)
      · rw [h2, hus]
        show (wg.cMap ++ [(wg.last + 1, 0)]).length = wg.cMap.length + 1
        rw [List.length_append]
        rfl

/-- Witness for C7 at the fresh pool of capacity 1. -/
theorem c7_use_refusal_witness :
    (((Princ.Use (Princ.NewThrottler 1)).1 = none ↔
      (Princ.NewThrottler 1).cMap.length = (Princ.NewThrottler 1).max) ∧
    (∀ hnew, (Princ.Use (Princ.NewThrottler 1)).1 = some hnew →
      Princ.hasKey (Princ.NewThrottler 1).cMap hnew = false ∧
      Princ.hasKey (Princ.Use (Princ.NewThrottler 1)).2.cMap hnew = true ∧
      Princ.get (Princ.Use (Princ.NewThrottler 1)).2 hnew = 0 ∧
      (Princ.Use (Princ.NewThrottler 1)).2.cMap.length =
        (Princ.NewThrottler 1).cMap.length + 1)) :=
  c7_use_refusal [] 1 (Princ.NewThrottler 1) rfl

/-- Counterexample for C8: a context carrying the integer 5, never issued by
this pool (which is fresh and has issued nothing), is accepted by Done
without any panic, and the held count of the phantom principal and the
global total silently become -1. -/
theorem c8_misuse_counterexample :
    Princ.Done (some 5) (Princ.NewThrottler 2) =
      some ⟨[(5, -1)], 0, -1, 2, 1, false⟩ ∧
    (⟨[(5, -1)], 0, -1, 2, 1, false⟩ : Princ.WgThrottler).total = -1 ∧
    Princ.get ⟨[(5, -1)], 0, -1, 2, 1, false⟩ 5 = -1 :=
  ⟨by decide, by decide, by decide⟩

/-- C8 amended: only a context carrying no integer user value makes Next or
Done panic; any integer-carrying context — including one never issued by
this pool or issued by another pool — is accepted by Done, which silently
decrements that integer key and the total, allowing both to go negative. -/
theorem c8_misuse_amended :
    (∀ (evs : List Princ.WEv) (wg : Princ.WgThrottler),
      Princ.Next none evs wg = none) ∧
    (∀ wg : Princ.WgThrottler, Princ.Done none wg = none) ∧
    (∀ (u : Nat) (wg : Princ.WgThrottler), wg.chClosed = false →
      ∃ wg1, Princ.Done (some u) wg = some wg1 ∧
        Princ.get wg1 u = Princ.get wg u - 1 ∧ wg1.total = wg.total - 1) := by
  refine ⟨fun evs wg => rfl, fun wg => rfl, ?_⟩
  intro u wg hcc
  have hDone : Princ.Done (some u) wg =
      some { wg with
        cMap := Princ.mapAdd wg.cMap u (-1)
        total := wg.total - 1
        parked := wg.parked + 1 } := by
    simp [Princ.Done, Princ.dec, hcc]
  refine ⟨_, hDone, ?_, rfl⟩
  show Princ.mapGet (Princ.mapAdd wg.cMap u (-1)) u = Princ.mapGet wg.cMap u - 1
  rw [Princ.mapGet_mapAdd_self]
  ring

/-- Witness for the amended C8: the panic cases and a forged handle on a
fresh pool. -/
theorem c8_misuse_amended_witness :
    Princ.Next none [] (Princ.NewThrottler 2) = none ∧
    Princ.Done none (Princ.NewThrottler 2) = none ∧
    (∃ wg1, Princ.Done (some 7) (Princ.NewThrottler 2) = some wg1 ∧
      Princ.get wg1 7 = Princ.get (Princ.NewThrottler 2) 7 - 1 ∧
      wg1.total = (Princ.NewThrottler 2).total - 1) :=
  ⟨c8_misuse_amended.1 [] (Princ.NewThrottler 2),
   c8_misuse_amended.2.1 (Princ.NewThrottler 2),
   c8_misuse_amended.2.2 7 (Princ.NewThrottler 2) rfl⟩

/-- Counterexample for C9: on the per-principal pool, a first round of
register, admit, release, Wait (k = 1 < max = 2) leaves total at 0 but
closes the wake channel, so the Release of the next round panics (send on
closed channel): the pool does not accept a new round. -/
theorem c9_reuse_counterexample :
    Princ.runOps [.use, .next 1 [], .done 1, .wait] (Princ.NewThrottler 2) =
      some ⟨[(1, 0)], 1, 0, 2, 0, true⟩ ∧
    Princ.runOps [.use, .next 1 [], .done 1, .wait, .use, .next 2 [], .done 2]
      (Princ.NewThrottler 2) = none :=
  ⟨by decide, by decide⟩

/-- C9 amended: on the global controller, sequentially admitting k units
(k < max) and then releasing them and calling Wait returns the pool to
exactly its freshly constructed state — total 0, no parked signal — so the
identical second round succeeds as well; on the per-principal pool Wait
closes the wake channel, so a second round panics at its first Release. -/
theorem c9_reuse_amended (k max : Nat) (hmax : 1 ≤ max) (hk : k < max) :
    Glob.roundTrip k (Glob.NewThrottler max) = some (Glob.NewThrottler max) ∧
    (Glob.roundTrip k (Glob.NewThrottler max)).bind (Glob.roundTrip k) =
      some (Glob.NewThrottler max) := by
  have h := Glob.roundTrip_id k max hmax hk
  refine ⟨h, ?_⟩
  rw [h]
  exact h

/-- Witness for the amended C9 with one unit on a pool of capacity 2. -/
theorem c9_reuse_amended_witness :
    Glob.roundTrip 1 (Glob.NewThrottler 2) = some (Glob.NewThrottler 2) ∧
    (Glob.roundTrip 1 (Glob.NewThrottler 2)).bind (Glob.roundTrip 1) =
      some (Glob.NewThrottler 2) :=
  c9_reuse_amended 1 2 (by decide) (by decide)

/-- C10: on every pool reachable by handle-disciplined use whose capacity is
at least 1, as long as some issued handle is registered the registry size N
satisfies 1 ≤ N ≤ max — so the quota computation max / N in Next never
divides by zero — and the computed quota is at least 1: every registered
principal is entitled to at least one slot. -/
theorem c10_quota_positive (ops : List Princ.POp) (max : Nat)
    (wg : Princ.WgThrottler) (u : Nat)
    (h : Princ.runVOps ops (Princ.NewThrottler max) = some wg)
    (hk : Princ.hasKey wg.cMap u = true) (hm : 1 ≤ wg.max) :
    1 ≤ wg.cMap.length ∧ wg.cMap.length ≤ wg.max ∧
    1 ≤ Princ.contextMaxF wg.max wg.cMap.length := by
  have hI := Princ.runVOps_Inv ops (Princ.NewThrottler max) wg h (Princ.Inv_start max)
  have hlen := Princ.hasKey_pos_length wg.cMap u hk
  exact ⟨hlen, hI.1, Princ.contextMaxF_pos wg.max wg.cMap.length hm hlen⟩

/-- Witness for C10: one registered principal on a pool of capacity 1. -/
theorem c10_quota_positive_witness :
    1 ≤ (⟨[(1, 0)], 1, 0, 1, 0, false⟩ : Princ.WgThrottler).cMap.length ∧
    (⟨[(1, 0)], 1, 0, 1, 0, false⟩ : Princ.WgThrottler).cMap.length ≤
      (⟨[(1, 0)], 1, 0, 1, 0, false⟩ : Princ.WgThrottler).max ∧
    1 ≤ Princ.contextMaxF (⟨[(1, 0)], 1, 0, 1, 0, false⟩ : Princ.WgThrottler).max
      (⟨[(1, 0)], 1, 0, 1, 0, false⟩ : Princ.WgThrottler).cMap.length :=
  c10_quota_positive [.use] 1 ⟨[(1, 0)], 1, 0, 1, 0, false⟩ 1
    (by decide) (by decide) (by decide)
